import Mathlib

/-!
Shallow embedding of the ParadeTo/bc cryptocurrency core (TypeScript) and
verification of its specification claims.

External cryptographic primitives (SHA-256, double SHA-256, RIPEMD-160,
Base58, ECDSA) are modelled as function parameters: `Hs : String → String`
stands for `Hash.sha256` on strings, `Htx : TxContent → String` for
`Hash.sha256 ∘ JSON.stringify` applied to a transaction's canonical signing
content, `H : Header → String` for `Hash.doubleSha256 ∘ JSON.stringify`
applied to a block header, and `SigV` for `Signature.verify`.  JavaScript
numbers used as amounts, indices and timestamps are modelled as `Int`
(nonces and difficulties, which the code only ever drives through
non-negative values, as `Nat`).
-/

namespace BC

/-- `TxOutput` (src/bitcoin/src/transaction/TxOutput.ts): an amount paid to
an address.  The constructor rejects `amount <= 0` and empty addresses. -/
structure TxOutput where
  amount : Int
  address : String
deriving DecidableEq, Repr

/-- `TxInput` (TxInput.ts): reference to a previous output plus signature
data.  `scriptSig` models the optional `_scriptSig` field: a P2PKH
unlocking script is a two-element push sequence `[signature, publicKey]`. -/
structure TxInput where
  txId : String
  outputIndex : Int
  signature : String
  publicKey : String
  scriptSig : Option (List String)
deriving DecidableEq, Repr

/-- `TxInput.isSigned`: legacy fields both non-empty, or a non-empty
`scriptSig` is present. -/
def TxInput.isSigned (i : TxInput) : Bool :=
  (decide (0 < i.signature.length) && decide (0 < i.publicKey.length)) ||
    (match i.scriptSig with
     | some s => !s.isEmpty
     | none => false)

/-- `TxInput.setSignature`: stores signature and public key and rebuilds the
P2PKH unlocking script `[signature, publicKey]`. -/
def TxInput.setSignature (i : TxInput) (sig pk : String) : TxInput :=
  { i with signature := sig, publicKey := pk, scriptSig := some [sig, pk] }

/-- The canonical signing content of a transaction
(`Transaction.getContentForSigning`): the inputs reduced to their outpoints
`(txId, outputIndex)`, the outputs, and the timestamp — signatures, public
keys and the id itself are excluded.  The JSON string the code produces is
a function of exactly this data, so we use the data itself as the hash
domain. -/
structure TxContent where
  inputs : List (String × Int)
  outputs : List TxOutput
  timestamp : Int
deriving DecidableEq, Repr

/-- `Transaction` (Transaction.ts). -/
structure Transaction where
  id : String
  inputs : List TxInput
  outputs : List TxOutput
  timestamp : Int
deriving DecidableEq, Repr

/-- The coinbase sentinel transaction id (64 zero hex digits). -/
def COINBASE_TXID : String :=
  "0000000000000000000000000000000000000000000000000000000000000000"

/-- `Transaction.getContentForSigning` as structured data. -/
def Transaction.contentForSigning (tx : Transaction) : TxContent :=
  ⟨tx.inputs.map (fun i => (i.txId, i.outputIndex)), tx.outputs, tx.timestamp⟩

/-- `Transaction.isCoinbase`: exactly one input whose `txId` is the
sentinel. -/
def Transaction.isCoinbase (tx : Transaction) : Bool :=
  match tx.inputs with
  | [i] => i.txId == COINBASE_TXID
  | _ => false

/-- The `Transaction` constructor: rejects empty inputs or outputs, then
sets `id := sha256(getContentForSigning())` (`calculateId`). -/
def mkTransaction (Htx : TxContent → String) (inputs : List TxInput)
    (outputs : List TxOutput) (timestamp : Int) : Option Transaction :=
  if inputs.isEmpty || outputs.isEmpty then none
  else
    some { id := Htx ⟨inputs.map (fun i => (i.txId, i.outputIndex)), outputs, timestamp⟩,
           inputs := inputs, outputs := outputs, timestamp := timestamp }

/-- `Transaction.getOutputAmount`. -/
def Transaction.getOutputAmount (tx : Transaction) : Int :=
  tx.outputs.foldl (fun s o => s + o.amount) 0

/-! ## UTXO set (UTXO.ts)

The TypeScript `UTXOSet` is a `Map<string, TxOutput>` keyed by
`` `${txId}:${outputIndex}` ``.  Since an output index prints without a
colon, that key determines and is determined by the pair
`(txId, outputIndex)`, which we use directly.  A JS `Map` keeps insertion
order and replaces in place on `set` of an existing key; we model it as an
ordered association list with those semantics. -/

/-- An outpoint: `(transactionId, outputIndex)`. -/
abbrev Outpoint := String × Int

/-- The UTXO map: insertion-ordered entries of outpoint and output. -/
abbrev UTXOMap := List (Outpoint × TxOutput)

/-- `UTXOSet.has`. -/
def usHas (u : UTXOMap) (k : Outpoint) : Bool :=
  u.any (fun e => e.1 == k)

/-- `UTXOSet.get` (`Map.get`): first — with unique keys, the — entry. -/
def usGet (u : UTXOMap) (k : Outpoint) : Option TxOutput :=
  (u.find? (fun e => e.1 == k)).map (fun e => e.2)

/-- `UTXOSet.add` (`Map.set`): replace in place if present, else append. -/
def usAdd (u : UTXOMap) (k : Outpoint) (v : TxOutput) : UTXOMap :=
  if usHas u k then u.map (fun e => if e.1 == k then (k, v) else e)
  else u ++ [(k, v)]

/-- `UTXOSet.remove` (`Map.delete`): drop the entry with the key. -/
def usRemove (u : UTXOMap) (k : Outpoint) : UTXOMap :=
  u.filter (fun e => !(e.1 == k))

/-- `UTXOSet.getUTXOsByAddress`: the entries whose output pays the
address, in insertion order. -/
def usByAddress (u : UTXOMap) (address : String) : UTXOMap :=
  u.filter (fun e => e.2.address == address)

/-- `UTXOSet.getBalance`: sum of the amounts paid to the address. -/
def usBalance (u : UTXOMap) (address : String) : Int :=
  (usByAddress u address).foldl (fun s e => s + e.2.amount) 0

/-! ## Block (Block.ts)

`Block.calculateHash()` is `doubleSha256(JSON.stringify(header))` where the
header object holds exactly `index`, `previousHash`, `timestamp`,
`merkleRoot`, `difficulty`, `nonce` (`getHeaderString`).  The string is a
function of exactly those six fields, so the hash is modelled as an
abstract function `H : Header → String`.  The class caches the hash;
`setNonce` clears the cache.  Nothing else in the repository mutates a
block's fields, so for chain-level reasoning the observed hash equals the
pure recomputation and we use the cache-free `BlockData`; the cache itself
is modelled separately by `CBlock` below. -/

/-- The six committed header fields that feed `Block.calculateHash`. -/
structure Header where
  index : Int
  previousHash : String
  timestamp : Int
  merkleRoot : String
  difficulty : Nat
  nonce : Nat
deriving DecidableEq, Repr

/-- A block, cache elided (see module comment). -/
structure BlockData where
  index : Int
  previousHash : String
  timestamp : Int
  merkleRoot : String
  difficulty : Nat
  nonce : Nat
  transactions : List Transaction
deriving DecidableEq, Repr

/-- The header of a block. -/
def BlockData.header (b : BlockData) : Header :=
  ⟨b.index, b.previousHash, b.timestamp, b.merkleRoot, b.difficulty, b.nonce⟩

/-- `Block.calculateHash` = `get hash` on an unmutated block. -/
def blockHash (H : Header → String) (b : BlockData) : String :=
  H b.header

/-- `Block.setNonce` (pure view; the cache is invalidated, so the next
hash read recomputes — see `CBlock.setNonce` for the cached model). -/
def BlockData.setNonce (b : BlockData) (n : Nat) : BlockData :=
  { b with nonce := n }

/-- `'0'.repeat(difficulty)`. -/
def zeroPrefix (d : Nat) : String :=
  String.mk (List.replicate d '0')

/-- `String.prototype.startsWith`: character-level prefix test. -/
def strStartsWith (s p : String) : Bool :=
  p.toList.isPrefixOf s.toList

/-- `Block.hasValidHash`: the hash starts with `difficulty` zero hex
digits. -/
def hasValidHash (H : Header → String) (b : BlockData) : Bool :=
  strStartsWith (blockHash H b) (zeroPrefix b.difficulty)

/-! ## Proof of work (ProofOfWork.ts) -/

/-- `ProofOfWork.verify`: independently re-checks `hasValidHash`. -/
def powVerify (H : Header → String) (b : BlockData) : Bool :=
  hasValidHash H b

/-- The data `ProofOfWork.mine` returns (timing fields elided), plus the
block as the miner leaves it. -/
structure MiningResult where
  nonce : Nat
  hash : String
  block : BlockData
deriving DecidableEq, Repr

/-- The mining loop: set the nonce, recompute the hash, accept on the
difficulty target, else try the next nonce.  The unbounded `while (true)`
is modelled with fuel (`none` = the search did not finish within the
allotted attempts). -/
def mineAux (H : Header → String) : Nat → Nat → BlockData → Option MiningResult
  | 0, _, _ => none
  | fuel + 1, n, b =>
    if hasValidHash H (b.setNonce n) then
      some ⟨n, blockHash H (b.setNonce n), b.setNonce n⟩
    else mineAux H fuel (n + 1) (b.setNonce n)

/-- `ProofOfWork.mine`: nonce search upward from 0. -/
def mine (H : Header → String) (fuel : Nat) (b : BlockData) : Option MiningResult :=
  mineAux H fuel 0 b

/-! ## Blockchain (Blockchain.ts) -/

/-- The mutable state of a `Blockchain`: the chain and the owned UTXO
projection (config fields are irrelevant to the claims settled here). -/
structure BCState where
  chain : List BlockData
  utxoSet : UTXOMap
deriving DecidableEq, Repr

/-- Per-transaction part of `Blockchain.updateUTXOSet`: remove the spent
outpoints of a non-coinbase transaction, then add every output under
`(tx.id, index)`. -/
def applyTx (u : UTXOMap) (tx : Transaction) : UTXOMap :=
  let u1 :=
    if tx.isCoinbase then u
    else tx.inputs.foldl (fun acc i => usRemove acc (i.txId, i.outputIndex)) u
  tx.outputs.enum.foldl (fun acc oi => usAdd acc (tx.id, (oi.1 : Int)) oi.2) u1

/-- `Blockchain.updateUTXOSet`: fold a block's transactions in order. -/
def updateUTXOSet (u : UTXOMap) (b : BlockData) : UTXOMap :=
  b.transactions.foldl applyTx u

/-- Rebuild of the UTXO set from scratch, as `replaceChain` performs it:
fold every block of the chain over the empty set. -/
def rebuildUTXO (chain : List BlockData) : UTXOMap :=
  chain.foldl updateUTXOSet []

/-- `Blockchain.isValidTransaction`: every input's outpoint exists in the
current UTXO set (existence only). -/
def isValidTransaction (u : UTXOMap) (tx : Transaction) : Bool :=
  tx.inputs.all (fun i => usHas u (i.txId, i.outputIndex))

/-- `Blockchain.isValidNewBlock`: index, previous hash, proof of work,
strictly increasing timestamp, and — for every non-coinbase transaction —
`isValidTransaction` against the given UTXO set. -/
def isValidNewBlock (H : Header → String) (u : UTXOMap)
    (nb pb : BlockData) : Bool :=
  (nb.index == pb.index + 1) &&
  (nb.previousHash == blockHash H pb) &&
  powVerify H nb &&
  (pb.timestamp < nb.timestamp) &&
  nb.transactions.all (fun tx => tx.isCoinbase || isValidTransaction u tx)

/-- `Blockchain.initializeWithGenesisBlock`: rejects (throws) when the
chain is non-empty or the block's index is not 0; otherwise pushes the
block and folds it into the UTXO set. -/
def initGenesis (s : BCState) (g : BlockData) : Option BCState :=
  if !s.chain.isEmpty then none
  else if g.index != 0 then none
  else some ⟨s.chain ++ [g], updateUTXOSet s.utxoSet g⟩

/-- `Blockchain.addBlock`: validates against the tip
(`getLatestBlock`, which throws on an empty chain — hence `Option`);
on success appends the block and folds it into the UTXO set, on failure
returns `false` with the state untouched. -/
def addBlock (H : Header → String) (s : BCState) (b : BlockData) :
    Option (Bool × BCState) :=
  match s.chain.getLast? with
  | none => none
  | some tip =>
    if isValidNewBlock H s.utxoSet b tip then
      some (true, ⟨s.chain ++ [b], updateUTXOSet s.utxoSet b⟩)
    else
      some (false, s)

/-- The pairwise loop of `Blockchain.isValidChain`: each consecutive block
pair passes `isValidNewBlock` against the blockchain's UTXO set `u`. -/
def validPairs (H : Header → String) (u : UTXOMap) : List BlockData → Bool
  | [] => true
  | [_] => true
  | a :: b :: rest => isValidNewBlock H u b a && validPairs H u (b :: rest)

/-- `Blockchain.isValidChain`: non-empty, genesis shape (`index == 0`,
`previousHash == "0"`), then the pairwise loop. -/
def isValidChainB (H : Header → String) (s : BCState) : Bool :=
  match s.chain with
  | [] => false
  | g :: _ =>
    (g.index == 0) && (g.previousHash == "0") && validPairs H s.utxoSet s.chain

/-- `Blockchain.replaceChain`: rejects unless strictly longer; validates
the candidate as a fresh `Blockchain` whose chain is the candidate and
whose UTXO set is empty; on success swaps the chain and rebuilds the UTXO
set from scratch. -/
def replaceChain (H : Header → String) (s : BCState)
    (newChain : List BlockData) : Bool × BCState :=
  if newChain.length ≤ s.chain.length then (false, s)
  else if !isValidChainB H ⟨newChain, []⟩ then (false, s)
  else (true, ⟨newChain, rebuildUTXO newChain⟩)

/-- The blockchain states reachable from a fresh `Blockchain` (empty chain
and UTXO set) through the three mutating operations, for a fixed header
hash `H`. -/
inductive Reach (H : Header → String) : BCState → Prop where
  | empty : Reach H ⟨[], []⟩
  | genesis {s s' : BCState} {g : BlockData} :
      Reach H s → initGenesis s g = some s' → Reach H s'
  | add {s s' : BCState} {b : BlockData} {r : Bool} :
      Reach H s → addBlock H s b = some (r, s') → Reach H s'
  | replace {s : BCState} {c : List BlockData} {r : Bool} {s' : BCState} :
      Reach H s → replaceChain H s c = (r, s') → Reach H s'

/-! ## Merkle tree (MerkleTree.ts)

`MerkleTree` builds leaves `sha256(item)` from the input list, then
repeatedly pairs nodes bottom-up — `parent.hash = sha256(left.hash +
right.hash)`, an unpaired last node being paired with itself — until one
root remains.  Constructed nodes either have both children or none, so
`MerkleNode` is modelled as a leaf/internal inductive. -/

/-- A Merkle node: `{hash, left?, right?}` as the builder creates it. -/
inductive MNode where
  | leaf (hash : String)
  | node (hash : String) (left right : MNode)
deriving DecidableEq, Repr

/-- The `hash` field of a node. -/
def MNode.hash : MNode → String
  | leaf h => h
  | node h _ _ => h

/-- The leaf hashes below a node, left to right. -/
def MNode.leafHashes : MNode → List String
  | leaf h => [h]
  | node _ l r => l.leafHashes ++ r.leafHashes

/-- Well-formed trees: every internal hash is
`sha256(left.hash + right.hash)` — the shape `buildTreeFromNodes`
produces. -/
inductive MNode.WF (Hs : String → String) : MNode → Prop where
  | leaf (h : String) : MNode.WF Hs (.leaf h)
  | node {l r : MNode} : MNode.WF Hs l → MNode.WF Hs r →
      MNode.WF Hs (.node (Hs (l.hash ++ r.hash)) l r)

/-- A parent node over two children. -/
def mkParent (Hs : String → String) (l r : MNode) : MNode :=
  .node (Hs (l.hash ++ r.hash)) l r

/-- One pairing pass of `buildTreeFromNodes`: consecutive pairs, the
unpaired last node paired with itself. -/
def pairUp (Hs : String → String) : List MNode → List MNode
  | [] => []
  | [a] => [mkParent Hs a a]
  | a :: b :: rest => mkParent Hs a b :: pairUp Hs rest

/-- The level-by-level recursion of `buildTreeFromNodes`, driven by a
fuel counter (each pass at least halves a list of length ≥ 2, so fuel
equal to the list length always suffices; see `buildLevels_congr`).
The empty-list and fuel-exhaustion branches are unreachable junk: the
`MerkleTree` constructor rejects empty input. -/
def buildLevels (Hs : String → String) : Nat → List MNode → MNode
  | _, [] => .leaf ""
  | _, [a] => a
  | 0, a :: _ :: _ => a
  | n + 1, a :: b :: rest => buildLevels Hs n (pairUp Hs (a :: b :: rest))

/-- `buildTreeFromNodes`. -/
def buildTreeFromNodes (Hs : String → String) (ns : List MNode) : MNode :=
  buildLevels Hs ns.length ns

/-- The side a proof sibling sits on (`position: 'left' | 'right'`). -/
inductive Side where
  | left
  | right
deriving DecidableEq, Repr

/-- One Merkle proof element: `{hash, position}`. -/
structure PElem where
  hash : String
  position : Side
deriving DecidableEq, Repr

/-- `MerkleTree.buildProof`: recursive search for the target leaf hash;
on the way back up the sibling of the taken branch is appended, tagged
with the side the sibling is on. -/
def buildProof (t : String) : MNode → Option (List PElem)
  | .leaf h => if h == t then some [] else none
  | .node _ l r =>
    match buildProof t l with
    | some p => some (p ++ [⟨r.hash, Side.right⟩])
    | none =>
      match buildProof t r with
      | some p => some (p ++ [⟨l.hash, Side.left⟩])
      | none => none

/-- The `MerkleTree` object: root plus the stored leaf hashes. -/
structure MTree where
  root : MNode
  leaves : List String
deriving DecidableEq, Repr

/-- The `MerkleTree` constructor: rejects (throws) on an empty list,
else hashes every item into a leaf and folds pairs up to a root. -/
def mkMerkleTree (Hs : String → String) (data : List String) : Option MTree :=
  if data.isEmpty then none
  else some ⟨buildTreeFromNodes Hs ((data.map Hs).map MNode.leaf), data.map Hs⟩

/-- `MerkleTree.getRoot`. -/
def MTree.getRoot (t : MTree) : String := t.root.hash

/-- `MerkleTree.getProof`: hash the query and search
(`none` = the data is not in the tree, where the code throws). -/
def MTree.getProof (Hs : String → String) (t : MTree) (data : String) :
    Option (List PElem) :=
  buildProof (Hs data) t.root

/-- One step of `MerkleTree.verify`'s fold: a left sibling is prepended,
a right sibling appended, then hashed. -/
def foldStep (Hs : String → String) (h : String) (e : PElem) : String :=
  match e.position with
  | Side.left => Hs (e.hash ++ h)
  | Side.right => Hs (h ++ e.hash)

/-- Static `MerkleTree.verify`: refold the proof from `sha256(data)`
and compare with the claimed root. -/
def merkleVerify (Hs : String → String) (data : String) (proof : List PElem)
    (root : String) : Bool :=
  proof.foldl (foldStep Hs) (Hs data) == root

/-- The Merkle root of a list of transaction ids
(`Block.calculateMerkleRoot`). -/
def merkleRootOf (Hs : String → String) (ids : List String) : String :=
  (buildTreeFromNodes Hs (ids.map (fun i => MNode.leaf (Hs i)))).hash

/-- The `Block` constructor: rejects (throws) an empty transaction list,
then commits to the transactions through the Merkle root. -/
def mkBlock (Hs : String → String) (index : Int) (previousHash : String)
    (timestamp : Int) (transactions : List Transaction)
    (difficulty nonce : Nat) : Option BlockData :=
  if transactions.isEmpty then none
  else
    some ⟨index, previousHash, timestamp,
      merkleRootOf Hs (transactions.map (fun tx => tx.id)),
      difficulty, nonce, transactions⟩

/-! ## Transaction signer (TransactionSigner.ts)

`Wallet.sign(data)` signs the canonical content string with the wallet's
private key; we model a wallet as its public key, its address and its
signing function on the canonical content. -/

/-- A wallet as the signer sees it. -/
structure Wallet where
  publicKey : String
  address : String
  sign : TxContent → String

/-- `TransactionSigner.signInput`: out-of-range index → `false`;
already-signed input → `true` without change; else sign the whole
transaction's canonical content and store signature and public key on
input `i`.  The transaction id is not recomputed here. -/
def signInput (tx : Transaction) (inputIndex : Int) (w : Wallet) :
    Bool × Transaction :=
  if inputIndex < 0 ∨ (tx.inputs.length : Int) ≤ inputIndex then (false, tx)
  else
    match tx.inputs.get? inputIndex.toNat with
    | none => (false, tx)
    | some inp =>
      if inp.isSigned then (true, tx)
      else
        (true, { tx with inputs := (tx.inputs.set inputIndex.toNat
            (inp.setSignature (w.sign tx.contentForSigning) w.publicKey)) })

/-- `TransactionSigner.signTransaction`: sign every unsigned input with
the same wallet, then re-run `calculateId`. -/
def signTransaction (Htx : TxContent → String) (tx : Transaction)
    (w : Wallet) : Transaction :=
  let txData := tx.contentForSigning
  let tx' := { tx with inputs := tx.inputs.map (fun (inp : TxInput) =>
    if inp.isSigned then inp
    else inp.setSignature (w.sign txData) w.publicKey) }
  { tx' with id := Htx tx'.contentForSigning }

/-- `TransactionSigner.signTransactionWithWallets`: wallet count must
equal input count (else throws → `none`); input `i` is signed with
wallet `i`; then `calculateId` is re-run. -/
def signTransactionWithWallets (Htx : TxContent → String) (tx : Transaction)
    (ws : List Wallet) : Option Transaction :=
  if ws.length != tx.inputs.length then none
  else
    let txData := tx.contentForSigning
    let inputs' := (tx.inputs.zip ws).map (fun (p : TxInput × Wallet) =>
      if p.1.isSigned then p.1
      else p.1.setSignature (p.2.sign txData) p.2.publicKey)
    let tx' := { tx with inputs := inputs' }
    some { tx' with id := Htx tx'.contentForSigning }

/-- The per-input loop of `signTransactionWithWalletMap`: the first
failing input aborts the whole pass (throws → `none`). -/
def signMapInputs (sign : TxInput → Option TxInput) :
    List TxInput → Option (List TxInput)
  | [] => some []
  | i :: rest =>
    match sign i with
    | none => none
    | some i' =>
      match signMapInputs sign rest with
      | none => none
      | some rest' => some (i' :: rest')

/-- `TransactionSigner.signTransactionWithWalletMap`: each unsigned
input is signed by the wallet registered for the address that owns the
referenced UTXO; a missing UTXO or wallet throws (→ `none`); then
`calculateId` is re-run. -/
def signTransactionWithWalletMap (Htx : TxContent → String)
    (tx : Transaction) (walletMap : List (String × Wallet))
    (utxoSet : UTXOMap) : Option Transaction :=
  match signMapInputs (fun inp =>
    if inp.isSigned then some inp
    else
      match usGet utxoSet (inp.txId, inp.outputIndex) with
      | none => none
      | some utxo =>
        match walletMap.find? (fun e => e.1 == utxo.address) with
        | none => none
        | some e => some (inp.setSignature (e.2.sign tx.contentForSigning)
            e.2.publicKey))
    tx.inputs with
  | none => none
  | some inputs' =>
    some { id := Htx (Transaction.contentForSigning { tx with inputs := inputs' }),
           inputs := inputs', outputs := tx.outputs,
           timestamp := tx.timestamp }

/-- `base58(ripemd160(sha256(publicKey)))` — the address derivation
`verifyTransaction` recomputes from a stored public key. -/
def addressFromPublicKey (Hs R160 B58 : String → String) (pk : String) :
    String :=
  B58 (R160 (Hs pk))

/-- `TransactionSigner.verifyTransaction`: `true` immediately for a
coinbase; else every input must be signed, its signature must verify
against the canonical content under its stored public key, its
referenced UTXO must exist, and the address derived from its public key
must equal the UTXO's address.  Total — never throws. -/
def verifyTransaction (SigV : TxContent → String → String → Bool)
    (Hs R160 B58 : String → String) (tx : Transaction)
    (utxoSet : UTXOMap) : Bool :=
  if tx.isCoinbase then true
  else
    let txData := tx.contentForSigning
    tx.inputs.all (fun inp =>
      inp.isSigned &&
      SigV txData inp.signature inp.publicKey &&
      (match usGet utxoSet (inp.txId, inp.outputIndex) with
       | none => false
       | some utxo =>
         addressFromPublicKey Hs R160 B58 inp.publicKey == utxo.address))

/-! ## Transaction builder (TransactionBuilder.ts) -/

/-- The staged builder state. -/
structure BuilderState where
  utxoSet : UTXOMap
  fromWallet : Option Wallet
  recipients : List (String × Int)
  feePerByte : Int
  changeAddress : Option String

/-- The `TransactionBuilder` constructor. -/
def newBuilder (u : UTXOMap) : BuilderState :=
  ⟨u, none, [], 0, none⟩

/-- `TransactionBuilder.from`: sets the source wallet and defaults the
change address to the sender's. -/
def bFrom (st : BuilderState) (w : Wallet) : BuilderState :=
  { st with fromWallet := some w, changeAddress := some w.address }

/-- `TransactionBuilder.to`: rejects (throws) non-positive amounts. -/
def bTo (st : BuilderState) (address : String) (amount : Int) :
    Option BuilderState :=
  if amount ≤ 0 then none
  else some { st with recipients := st.recipients ++ [(address, amount)] }

/-- `TransactionBuilder.withFee`. -/
def bWithFee (st : BuilderState) (f : Int) : BuilderState :=
  { st with feePerByte := f }

/-- `TransactionBuilder.withChangeAddress`. -/
def bWithChangeAddress (st : BuilderState) (a : String) : BuilderState :=
  { st with changeAddress := some a }

/-- Sum of the output amounts of a UTXO entry list. -/
def sumAmounts (l : UTXOMap) : Int :=
  l.foldl (fun s e => s + e.2.amount) 0

/-- Stable insertion (descending by amount, ties keeping earlier
elements first) — one step of the stable sort below. -/
def insertDesc (x : Outpoint × TxOutput) : UTXOMap → UTXOMap
  | [] => [x]
  | y :: rest =>
    if y.2.amount < x.2.amount then x :: y :: rest
    else y :: insertDesc x rest

/-- The `[...utxos].sort((a, b) => b.output.amount - a.output.amount)`
step.  `Array.prototype.sort` is stable and the comparator orders by
amount descending, which determines the result uniquely; a stable
insertion sort realizes it. -/
def sortByAmountDesc (l : UTXOMap) : UTXOMap :=
  l.foldr insertDesc []

/-- The selection loop of `selectUTXOs`: push each UTXO in order and
stop as soon as the accumulated amount reaches the target. -/
def takeUntil (target : Int) : UTXOMap → Int → UTXOMap
  | [], _ => []
  | u :: rest, tot =>
    u :: (if target ≤ tot + u.2.amount then []
          else takeUntil target rest (tot + u.2.amount))

/-- `TransactionBuilder.selectUTXOs`: sort descending by amount, select
greedily until the target is covered, and return `[]` when even the
full list falls short. -/
def selectUTXOs (utxos : UTXOMap) (target : Int) : UTXOMap :=
  let sel := takeUntil target (sortByAmountDesc utxos) 0
  if sumAmounts sel < target then [] else sel

/-- `this.changeAddress || this.fromWallet.address` — an unset or empty
(falsy) change address falls back to the sender's. -/
def resolveChangeAddress (st : BuilderState) (w : Wallet) : String :=
  match st.changeAddress with
  | some a => if a == "" then w.address else a
  | none => w.address

/-- `build`'s recipient total (`totalOutput`). -/
def recipientTotal (st : BuilderState) : Int :=
  st.recipients.foldl (fun s r => s + r.2) 0

/-- The `selectUTXOs` call `build` makes: greedy selection from the
sender's UTXOs against the recipient total. -/
def selectedFor (st : BuilderState) (w : Wallet) : UTXOMap :=
  selectUTXOs (usByAddress st.utxoSet w.address) (recipientTotal st)

/-- `build`'s `change = totalInput - totalOutput`. -/
def changeOf (st : BuilderState) (w : Wallet) : Int :=
  sumAmounts (selectedFor st w) - recipientTotal st

/-- `TransactionBuilder.build`: requires a source wallet and at least
one recipient; selects source UTXOs greedily (`selectedFor`); one
unsigned input per selected UTXO, one output per recipient, plus a
change output paid to `resolveChangeAddress` iff the change is strictly
positive; errors (missing wallet/recipients, no sender UTXOs,
insufficient funds, negative change) throw → `none`.  `now` stands for
the `Date.now()` default timestamp of the `Transaction` constructor. -/
def build (Htx : TxContent → String) (now : Int) (st : BuilderState) :
    Option Transaction :=
  match st.fromWallet with
  | none => none
  | some w =>
    if st.recipients.isEmpty then none
    else if (usByAddress st.utxoSet w.address).isEmpty then none
    else if (selectedFor st w).isEmpty then none
    else if changeOf st w < 0 then none
    else
      mkTransaction Htx
        ((selectedFor st w).map (fun e => TxInput.mk e.1.1 e.1.2 "" "" none))
        (if 0 < changeOf st w
         then st.recipients.map (fun r => TxOutput.mk r.2 r.1) ++
           [TxOutput.mk (changeOf st w) (resolveChangeAddress st w)]
         else st.recipients.map (fun r => TxOutput.mk r.2 r.1))
        now

/-- The per-input loop of `Transaction.getInputAmount`: a missing UTXO
throws (→ `none`); otherwise amounts are summed. -/
def inputAmountAux (u : UTXOMap) : List TxInput → Option Int
  | [] => some 0
  | i :: rest =>
    match usGet u (i.txId, i.outputIndex) with
    | none => none
    | some o => (inputAmountAux u rest).map (fun s => o.amount + s)

/-- `Transaction.getInputAmount`. -/
def Transaction.getInputAmount (tx : Transaction) (u : UTXOMap) : Option Int :=
  inputAmountAux u tx.inputs

/-! ## The cached block hash (Block.ts)

`Block` stores `_hash?: string`; the `hash` getter computes and caches
on first read, `setNonce` writes the nonce and clears the cache, and a
direct write to any other public field leaves the cache in place. -/

/-- A block together with its `_hash` cache. -/
structure CBlock where
  index : Int
  previousHash : String
  timestamp : Int
  merkleRoot : String
  difficulty : Nat
  nonce : Nat
  transactions : List Transaction
  hashCache : Option String
deriving DecidableEq, Repr

/-- The committed header of a cached block. -/
def CBlock.header (b : CBlock) : Header :=
  ⟨b.index, b.previousHash, b.timestamp, b.merkleRoot, b.difficulty, b.nonce⟩

/-- The `hash` getter: return the cached value if present, else compute
`doubleSha256(headerString)`, cache it and return it. -/
def CBlock.hashGet (H : Header → String) (b : CBlock) : String × CBlock :=
  match b.hashCache with
  | some h => (h, b)
  | none => (H b.header, { b with hashCache := some (H b.header) })

/-- `Block.setNonce`: store the nonce and invalidate the cache. -/
def CBlock.setNonce (b : CBlock) (n : Nat) : CBlock :=
  { b with nonce := n, hashCache := none }

/-! ## Concrete values used in witnesses and counterexamples -/

/-- Identity stand-in for `sha256` on strings in concrete runs. -/
def dsHs : String → String := fun s => s

/-- Concrete transaction-content hash: the timestamp rendered as text
(distinguishes all sample transactions, fully evaluable). -/
def dsHtx : TxContent → String := fun c => toString c.timestamp

/-- Concrete header hash: constantly `"0"`. -/
def dsH : Header → String := fun _ => "0"

/-- The genesis coinbase of the double-spend scenario
(id = `dsHtx` of its content). -/
def dsCoinbase : Transaction :=
  ⟨"0", [⟨COINBASE_TXID, 0, "", "", none⟩], [⟨100, "alice"⟩], 0⟩

/-- First spender of the genesis coinbase output `("0", 0)`. -/
def dsSpend1 : Transaction :=
  ⟨"1", [⟨"0", 0, "s1", "p1", none⟩], [⟨100, "bob"⟩], 1⟩

/-- Second, distinct spender of the same outpoint. -/
def dsSpend2 : Transaction :=
  ⟨"2", [⟨"0", 0, "s2", "p2", none⟩], [⟨100, "carol"⟩], 2⟩

/-- Genesis block of the double-spend scenario. -/
def dsGenesis : BlockData := ⟨0, "0", 0, "0", 0, 0, [dsCoinbase]⟩

/-- The candidate block containing both spenders of the same outpoint. -/
def dsBlock2 : BlockData := ⟨1, "0", 1, "12", 1, 0, [dsSpend1, dsSpend2]⟩

/-- The state after initializing with `dsGenesis`. -/
def dsS1 : BCState := ⟨[] ++ [dsGenesis], updateUTXOSet [] dsGenesis⟩

/-- Concrete header hash for the cached-block scenario: renders the
index, so it distinguishes headers that differ in their index. -/
def c9H : Header → String := fun h => toString h.index

/-- A cached block with an empty hash cache. -/
def c9b0 : CBlock := ⟨0, "p", 0, "m", 1, 0, [], none⟩

/-- `c9b0` after one read of the `hash` getter: cache filled. -/
def c9b1 : CBlock := (CBlock.hashGet c9H c9b0).2

/-- `c9b1` after a direct write to the public `index` field: the cache
is not invalidated. -/
def c9b2 : CBlock := { c9b1 with index := 1 }

/-- A transaction whose id is `dsHtx` of its content, used by signer
witnesses. -/
def wTx : Transaction := ⟨"7", [⟨"x", 0, "", "", none⟩], [⟨10, "a"⟩], 7⟩

/-- A concrete wallet. -/
def wWallet : Wallet := ⟨"pk", "addr", fun _ => "sig"⟩

/-- A concrete UTXO set holding one 100-unit output for `wWallet`. -/
def wUtxo : UTXOMap := [(("u", 0), ⟨100, "addr"⟩)]

/-- A concrete builder state: source `wWallet`, one 40-unit recipient. -/
def wB : BuilderState := ⟨wUtxo, some wWallet, [("bob", 40)], 0, some "addr"⟩

/-- The genesis block used in concrete witnesses. -/
def wGen : BlockData :=
  ⟨0, "0", 0, "r", 0, 0,
    [⟨"t1", [⟨COINBASE_TXID, 0, "", "", none⟩], [⟨50, "a"⟩], 0⟩]⟩

/-- A successor block used in concrete witnesses. -/
def wNext : BlockData :=
  ⟨1, "h", 1, "r", 0, 0,
    [⟨"t2", [⟨COINBASE_TXID, 1, "", "", none⟩], [⟨50, "a"⟩], 1⟩]⟩

/-- A concrete header hash used in witnesses. -/
def wH : Header → String := fun _ => "h"

/-- The one-block chain state used in witnesses. -/
def wS0 : BCState := ⟨[wGen], []⟩

/-- The genesis-initialized state used in concrete witnesses. -/
def wS1 : BCState := ⟨[] ++ [wGen], updateUTXOSet [] wGen⟩

/-! ## Lemmas about block validation -/

/-- Unfolding of `isValidNewBlock = true` into the five validation
conditions. -/
theorem isValidNewBlock_iff (H : Header → String) (u : UTXOMap)
    (nb pb : BlockData) :
    isValidNewBlock H u nb pb = true ↔
      nb.index = pb.index + 1 ∧
      nb.previousHash = blockHash H pb ∧
      powVerify H nb = true ∧
      pb.timestamp < nb.timestamp ∧
      ∀ tx ∈ nb.transactions, tx.isCoinbase = false →
        ∀ inp ∈ tx.inputs, usHas u (inp.txId, inp.outputIndex) = true := by
  simp only [isValidNewBlock, Bool.and_eq_true, beq_iff_eq, decide_eq_true_eq,
    List.all_eq_true, Bool.or_eq_true, isValidTransaction, and_assoc]
  constructor
  · rintro ⟨h1, h2, h3, h4, h5⟩
    refine ⟨h1, h2, h3, h4, fun tx htx hcb inp hinp => ?_⟩
    rcases h5 tx htx with h | h
    · rw [hcb] at h; cases h
    · exact h inp hinp
  · rintro ⟨h1, h2, h3, h4, h5⟩
    refine ⟨h1, h2, h3, h4, fun tx htx => ?_⟩
    cases hcb : tx.isCoinbase with
    | true => exact Or.inl rfl
    | false => exact Or.inr (h5 tx htx hcb)

/-- Computation rule for `addBlock` on a non-empty chain. -/
theorem addBlock_eq (H : Header → String) (s : BCState) (b tip : BlockData)
    (h : s.chain.getLast? = some tip) :
    addBlock H s b =
      some (isValidNewBlock H s.utxoSet b tip,
        if isValidNewBlock H s.utxoSet b tip then
          ⟨s.chain ++ [b], updateUTXOSet s.utxoSet b⟩
        else s) := by
  unfold addBlock
  rw [h]
  show (if isValidNewBlock H s.utxoSet b tip = true then
      some (true, BCState.mk (s.chain ++ [b]) (updateUTXOSet s.utxoSet b))
    else some (false, s)) = _
  by_cases hv : isValidNewBlock H s.utxoSet b tip = true
  · rw [if_pos hv, hv, if_pos rfl]
  · rw [if_neg hv, Bool.eq_false_iff.mpr hv, if_neg (by simp)]

/-- **C1.** `addBlock` on a blockchain with a non-empty chain (one
initialized with a genesis block) always returns a boolean — it never
throws, modelled by the result being `some` — and the returned flag is
`true` iff the candidate's index is `tip.index + 1`, its `previousHash`
is the tip's hash, its proof of work verifies, its timestamp strictly
exceeds the tip's, and every input of every non-coinbase transaction
references an outpoint present in the current UTXO set.  On success the
block is appended and the UTXO set folded; on failure chain and UTXO set
are unchanged. -/
theorem addBlock_spec (H : Header → String) (s : BCState) (b tip : BlockData)
    (h : s.chain.getLast? = some tip) :
    addBlock H s b =
      some (isValidNewBlock H s.utxoSet b tip,
        if isValidNewBlock H s.utxoSet b tip then
          ⟨s.chain ++ [b], updateUTXOSet s.utxoSet b⟩
        else s) ∧
    (isValidNewBlock H s.utxoSet b tip = true ↔
      b.index = tip.index + 1 ∧
      b.previousHash = blockHash H tip ∧
      powVerify H b = true ∧
      tip.timestamp < b.timestamp ∧
      ∀ tx ∈ b.transactions, tx.isCoinbase = false →
        ∀ inp ∈ tx.inputs, usHas s.utxoSet (inp.txId, inp.outputIndex) = true) :=
  ⟨addBlock_eq H s b tip h, isValidNewBlock_iff H s.utxoSet b tip⟩

/-- Closed witness for `addBlock_spec` at a concrete one-block chain. -/
theorem addBlock_spec_witness :
    wS0.chain.getLast? = some wGen ∧
    (addBlock wH wS0 wNext =
      some (isValidNewBlock wH wS0.utxoSet wNext wGen,
        if isValidNewBlock wH wS0.utxoSet wNext wGen then
          ⟨wS0.chain ++ [wNext], updateUTXOSet wS0.utxoSet wNext⟩
        else wS0) ∧
    (isValidNewBlock wH wS0.utxoSet wNext wGen = true ↔
      wNext.index = wGen.index + 1 ∧
      wNext.previousHash = blockHash wH wGen ∧
      powVerify wH wNext = true ∧
      wGen.timestamp < wNext.timestamp ∧
      ∀ tx ∈ wNext.transactions, tx.isCoinbase = false →
        ∀ inp ∈ tx.inputs, usHas wS0.utxoSet (inp.txId, inp.outputIndex) = true)) :=
  ⟨by decide, addBlock_spec wH wS0 wNext wGen (by decide)⟩

/-! ## The UTXO-set fold invariant -/

/-- **C3.** In every reachable blockchain state — i.e. after every
sequence of `initializeWithGenesisBlock`, `addBlock`, `replaceChain` —
the UTXO set equals the fold of per-block application over the empty set
across the whole chain: incremental application and a from-scratch
rebuild agree. -/
theorem utxoSet_eq_rebuild (H : Header → String) (s : BCState)
    (h : Reach H s) : s.utxoSet = rebuildUTXO s.chain := by
  induction h with
  | empty => rfl
  | @genesis s s' g _ hg ih =>
    cases hchain : s.chain with
    | cons a l =>
      unfold initGenesis at hg
      rw [hchain] at hg
      simp at hg
    | nil =>
      have hu : s.utxoSet = [] := by rw [ih, hchain]; rfl
      unfold initGenesis at hg
      rw [hchain] at hg
      by_cases hidx : g.index = 0
      · rw [if_neg (by simp), if_neg (by simp [hidx])] at hg
        cases hg
        simp [hu, rebuildUTXO]
      · rw [if_neg (by simp), if_pos (by simp [hidx])] at hg
        cases hg
  | @add s s' b r _ ha ih =>
    cases hl : s.chain.getLast? with
    | none =>
      unfold addBlock at ha
      rw [hl] at ha
      cases ha
    | some tip =>
      rw [addBlock_eq H s b tip hl] at ha
      by_cases hv : isValidNewBlock H s.utxoSet b tip = true
      · rw [if_pos hv] at ha
        cases ha
        simp only [rebuildUTXO, List.foldl_append]
        rw [← rebuildUTXO, ← ih]
        rfl
      · rw [if_neg hv] at ha
        cases ha
        exact ih
  | @replace s c r s' _ hr ih =>
    unfold replaceChain at hr
    by_cases h1 : c.length ≤ s.chain.length
    · rw [if_pos h1] at hr
      cases hr
      exact ih
    · rw [if_neg h1] at hr
      by_cases h2 : isValidChainB H ⟨c, []⟩ = true
      · rw [if_neg (by simp [h2])] at hr
        cases hr
        rfl
      · rw [if_pos (by simp [Bool.eq_false_iff.mpr h2])] at hr
        cases hr
        exact ih

/-- Closed witness for `utxoSet_eq_rebuild` at a concrete reachable
state (a freshly initialized genesis chain). -/
theorem utxoSet_eq_rebuild_witness :
    Reach wH wS1 ∧ wS1.utxoSet = rebuildUTXO wS1.chain :=
  have hreach : Reach wH wS1 := Reach.genesis (g := wGen) Reach.empty (by decide)
  ⟨hreach, utxoSet_eq_rebuild wH wS1 hreach⟩

/-! ## Chain replacement -/

/-- The pairwise loop of `isValidChain` is `List.Chain'` of
`isValidNewBlock` over consecutive blocks. -/
theorem validPairs_iff_chain (H : Header → String) (u : UTXOMap) :
    ∀ l : List BlockData,
      validPairs H u l = true ↔
        List.Chain' (fun a b => isValidNewBlock H u b a = true) l
  | [] => by simp [validPairs]
  | [a] => by simp [validPairs]
  | a :: b :: rest => by
    rw [validPairs, Bool.and_eq_true, validPairs_iff_chain H u (b :: rest),
      List.chain'_cons]

/-- Unfolding of `isValidChain = true`: non-empty chain, genesis shape,
pairwise validity against the blockchain's own UTXO set. -/
theorem isValidChainB_iff (H : Header → String) (s : BCState) :
    isValidChainB H s = true ↔
      ∃ g rest, s.chain = g :: rest ∧ g.index = 0 ∧ g.previousHash = "0" ∧
        List.Chain' (fun a b => isValidNewBlock H s.utxoSet b a = true)
          s.chain := by
  cases hc : s.chain with
  | nil => simp [isValidChainB, hc]
  | cons g rest =>
    simp only [isValidChainB, hc, Bool.and_eq_true, beq_iff_eq,
      validPairs_iff_chain]
    constructor
    · rintro ⟨⟨h1, h2⟩, h3⟩
      exact ⟨g, rest, rfl, h1, h2, h3⟩
    · rintro ⟨g', rest', heq, h1, h2, h3⟩
      cases heq
      exact ⟨⟨h1, h2⟩, h3⟩

/-- **C2.** `replaceChain` returns `false` (state unchanged) whenever the
candidate is not strictly longer; for a strictly longer candidate it
returns `true`, swaps the chain and rebuilds the UTXO set from scratch
exactly when the candidate validates as an independent chain — a fresh
blockchain holding the candidate and an empty UTXO set — and returns
`false` with the state unchanged otherwise.  The final conjunct unfolds
that validity: genesis with index 0 and sentinel previous hash plus
pairwise `isValidNewBlock` over every consecutive pair (checked against
the fresh blockchain's empty UTXO set). -/
theorem replaceChain_spec (H : Header → String) (s : BCState)
    (cand : List BlockData) :
    (cand.length ≤ s.chain.length → replaceChain H s cand = (false, s)) ∧
    (s.chain.length < cand.length →
      (isValidChainB H ⟨cand, []⟩ = true →
        replaceChain H s cand = (true, ⟨cand, rebuildUTXO cand⟩)) ∧
      (isValidChainB H ⟨cand, []⟩ = false →
        replaceChain H s cand = (false, s))) ∧
    (isValidChainB H ⟨cand, []⟩ = true ↔
      ∃ g rest, cand = g :: rest ∧ g.index = 0 ∧ g.previousHash = "0" ∧
        List.Chain' (fun a b => isValidNewBlock H [] b a = true) cand) := by
  refine ⟨?_, ?_, ?_⟩
  · intro hle
    rw [replaceChain, if_pos hle]
  · intro hlt
    constructor
    · intro hv
      rw [replaceChain, if_neg (by omega), if_neg (by simp [hv])]
    · intro hv
      rw [replaceChain, if_neg (by omega), if_pos (by simp [hv])]
  · simpa using isValidChainB_iff H ⟨cand, []⟩

/-- Closed witness for `replaceChain_spec`: a two-block valid candidate
replaces an empty chain. -/
theorem replaceChain_spec_witness :
    (BCState.mk [] []).chain.length < [wGen, wNext].length ∧
    isValidChainB wH ⟨[wGen, wNext], []⟩ = true ∧
    replaceChain wH ⟨[], []⟩ [wGen, wNext] =
      (true, ⟨[wGen, wNext], rebuildUTXO [wGen, wNext]⟩) :=
  ⟨by decide, by decide,
    ((replaceChain_spec wH ⟨[], []⟩ [wGen, wNext]).2.1 (by decide)).1
      (by decide)⟩

/-! ## Proof of work -/

/-- The mining loop, when it returns, returns the first satisfying
nonce at or above its starting point, the block at that nonce, and the
block's hash there. -/
theorem mineAux_spec (H : Header → String) :
    ∀ (fuel n : Nat) (b : BlockData) (r : MiningResult),
      mineAux H fuel n b = some r →
      n ≤ r.nonce ∧ r.block = b.setNonce r.nonce ∧
      hasValidHash H r.block = true ∧ r.hash = blockHash H r.block ∧
      ∀ m, n ≤ m → m < r.nonce → hasValidHash H (b.setNonce m) = false
  | 0, n, b, r => by
    intro h
    cases h
  | fuel + 1, n, b, r => by
    intro h
    rw [mineAux] at h
    by_cases hv : hasValidHash H (b.setNonce n) = true
    · rw [if_pos hv] at h
      cases h
      refine ⟨Nat.le_refl n, rfl, hv, rfl, fun m h1 h2 => ?_⟩
      have h2' : m < n := h2
      omega
    · rw [if_neg hv] at h
      obtain ⟨h1, h2, h3, h4, h5⟩ :=
        mineAux_spec H fuel (n + 1) (b.setNonce n) r h
      have hbb : ∀ k, (b.setNonce n).setNonce k = b.setNonce k := fun _ => rfl
      refine ⟨by omega, by rw [h2, hbb], h3, h4, fun m hm1 hm2 => ?_⟩
      rcases Nat.eq_or_lt_of_le hm1 with hm | hm
      · rw [← hm]
        exact Bool.eq_false_iff.mpr hv
      · have := h5 m (by omega) hm2
        rw [hbb] at this
        exact this

/-- **C7.** Whenever `ProofOfWork.mine` returns a result,
`ProofOfWork.verify` accepts the block as the miner leaves it; the
returned nonce is the smallest nonce (searched upward from 0) whose
block hash meets the difficulty target of leading `'0'` hex digits, and
the returned hash is the block's hash at that nonce. -/
theorem mine_spec (H : Header → String) (fuel : Nat) (b : BlockData)
    (r : MiningResult) (h : mine H fuel b = some r) :
    powVerify H r.block = true ∧
    r.block = b.setNonce r.nonce ∧
    r.hash = blockHash H r.block ∧
    ∀ m < r.nonce, hasValidHash H (b.setNonce m) = false := by
  obtain ⟨-, h2, h3, h4, h5⟩ := mineAux_spec H fuel 0 b r h
  exact ⟨h3, h2, h4, fun m hm => h5 m (Nat.zero_le m) hm⟩

/-- Closed witness for `mine_spec`: mining `wGen` at difficulty 0
succeeds immediately at nonce 0. -/
theorem mine_spec_witness :
    mine wH 1 wGen = some ⟨0, "h", wGen.setNonce 0⟩ ∧
    powVerify wH (MiningResult.mk 0 "h" (wGen.setNonce 0)).block = true ∧
    (MiningResult.mk 0 "h" (wGen.setNonce 0)).block =
      wGen.setNonce (MiningResult.mk 0 "h" (wGen.setNonce 0)).nonce ∧
    (MiningResult.mk 0 "h" (wGen.setNonce 0)).hash =
      blockHash wH (MiningResult.mk 0 "h" (wGen.setNonce 0)).block ∧
    ∀ m < (MiningResult.mk 0 "h" (wGen.setNonce 0)).nonce,
      hasValidHash wH (wGen.setNonce m) = false :=
  ⟨by decide, mine_spec wH 1 wGen ⟨0, "h", wGen.setNonce 0⟩ (by decide)⟩

/-! ## Intra-block double spend -/

/-- **C10.** A reachable state and a candidate block passing all of
`addBlock`'s checks in which two distinct non-coinbase transactions
spend the same outpoint, unspent before the block: per-transaction
input validation consults only the pre-block UTXO set, so `addBlock`
accepts the intra-block double spend and appends the block.  The
`mkTransaction`/`mkBlock` conjuncts show all objects arise from the
real constructors under the concrete hash stand-ins. -/
theorem addBlock_intra_block_double_spend :
    mkTransaction dsHtx dsSpend1.inputs dsSpend1.outputs 1 = some dsSpend1 ∧
    mkTransaction dsHtx dsSpend2.inputs dsSpend2.outputs 2 = some dsSpend2 ∧
    mkBlock dsHs 0 "0" 0 [dsCoinbase] 0 0 = some dsGenesis ∧
    mkBlock dsHs 1 "0" 1 [dsSpend1, dsSpend2] 1 0 = some dsBlock2 ∧
    Reach dsH dsS1 ∧
    dsSpend1 ≠ dsSpend2 ∧
    dsSpend1.isCoinbase = false ∧
    dsSpend2.isCoinbase = false ∧
    dsBlock2.transactions = [dsSpend1, dsSpend2] ∧
    (dsSpend1.inputs.map fun i => (i.txId, i.outputIndex)) = [("0", 0)] ∧
    (dsSpend2.inputs.map fun i => (i.txId, i.outputIndex)) = [("0", 0)] ∧
    usHas dsS1.utxoSet ("0", 0) = true ∧
    isValidNewBlock dsH dsS1.utxoSet dsBlock2 dsGenesis = true ∧
    addBlock dsH dsS1 dsBlock2 =
      some (true, ⟨dsS1.chain ++ [dsBlock2], updateUTXOSet dsS1.utxoSet dsBlock2⟩) :=
  ⟨by decide, by decide, by decide, by decide,
    Reach.genesis (g := dsGenesis) Reach.empty (by decide),
    by decide, by decide, by decide, by decide, by decide, by decide,
    by decide, by decide, by decide⟩

/-! ## Merkle proofs -/

/-- Folding an extended proof is one `foldStep` after folding the
prefix. -/
theorem foldl_foldStep_append (Hs : String → String) (p : List PElem)
    (e : PElem) (h : String) :
    (p ++ [e]).foldl (foldStep Hs) h = foldStep Hs (p.foldl (foldStep Hs) h) e := by
  rw [List.foldl_append]
  rfl

/-- Soundness of `buildProof` on well-formed trees: folding the proof
from the target hash re-derives the node's hash. -/
theorem buildProof_fold (Hs : String → String) (nd : MNode)
    (hwf : MNode.WF Hs nd) :
    ∀ t p, buildProof t nd = some p →
      p.foldl (foldStep Hs) t = nd.hash := by
  induction hwf with
  | leaf h =>
    intro t p hp
    rw [buildProof] at hp
    by_cases he : h == t
    · rw [if_pos he] at hp
      cases hp
      simpa [MNode.hash] using (beq_iff_eq.mp he).symm
    · rw [if_neg he] at hp
      cases hp
  | @node l r hl hr ihl ihr =>
    intro t p hp
    rw [buildProof] at hp
    cases hbl : buildProof t l with
    | some pl =>
      rw [hbl] at hp
      cases hp
      rw [foldl_foldStep_append, ihl t pl hbl]
      rfl
    | none =>
      rw [hbl] at hp
      cases hbr : buildProof t r with
      | some pr =>
        rw [hbr] at hp
        cases hp
        rw [foldl_foldStep_append, ihr t pr hbr]
        rfl
      | none =>
        rw [hbr] at hp
        cases hp

/-- Completeness of `buildProof`: a hash present among a node's leaves
is found. -/
theorem buildProof_isSome (nd : MNode) :
    ∀ t, t ∈ nd.leafHashes → (buildProof t nd).isSome = true := by
  induction nd with
  | leaf h =>
    intro t ht
    simp only [MNode.leafHashes, List.mem_singleton] at ht
    subst ht
    simp [buildProof]
  | node h l r ihl ihr =>
    intro t ht
    simp only [MNode.leafHashes, List.mem_append] at ht
    rw [buildProof]
    cases hbl : buildProof t l with
    | some pl => simp
    | none =>
      rcases ht with htl | htr
      · have := ihl t htl
        rw [hbl] at this
        cases this
      · obtain ⟨pr, hpr⟩ := Option.isSome_iff_exists.mp (ihr t htr)
        rw [hpr]
        simp

/-- `pairUp` halves the node count, rounding up. -/
theorem pairUp_length (Hs : String → String) :
    ∀ l : List MNode, (pairUp Hs l).length = (l.length + 1) / 2
  | [] => rfl
  | [a] => by simp [pairUp]
  | _ :: b :: rest => by
    simp only [pairUp, List.length_cons, pairUp_length Hs (rest)]
    omega

/-- `pairUp` preserves the leaf hashes present at a level (as a set —
the duplicated unpaired node repeats its leaves). -/
theorem mem_leafHashes_pairUp (Hs : String → String) :
    ∀ (ns : List MNode) (t : String),
      (∃ nd ∈ pairUp Hs ns, t ∈ nd.leafHashes) ↔
        (∃ nd ∈ ns, t ∈ nd.leafHashes)
  | [], t => by simp [pairUp]
  | [a], t => by simp [pairUp, mkParent, MNode.leafHashes]
  | a :: b :: rest, t => by
    constructor
    · rintro ⟨nd, hnd, ht⟩
      rcases List.mem_cons.mp hnd with heq | hnd'
      · subst heq
        rcases List.mem_append.mp
            (by simpa [pairUp, mkParent, MNode.leafHashes] using ht) with h | h
        · exact ⟨a, by simp, h⟩
        · exact ⟨b, by simp, h⟩
      · obtain ⟨nd', hnd2, ht'⟩ :=
          (mem_leafHashes_pairUp Hs rest t).mp ⟨nd, hnd', ht⟩
        exact ⟨nd', by simp [hnd2], ht'⟩
    · rintro ⟨nd, hnd, ht⟩
      rcases List.mem_cons.mp hnd with heq | hnd'
      · subst heq
        refine ⟨mkParent Hs nd b, by simp [pairUp], ?_⟩
        simp only [mkParent, MNode.leafHashes, List.mem_append]
        exact Or.inl ht
      rcases List.mem_cons.mp hnd' with heq | hnd''
      · subst heq
        refine ⟨mkParent Hs a nd, by simp [pairUp], ?_⟩
        simp only [mkParent, MNode.leafHashes, List.mem_append]
        exact Or.inr ht
      · obtain ⟨nd', hnd3, ht'⟩ :=
          (mem_leafHashes_pairUp Hs rest t).mpr ⟨nd, hnd'', ht⟩
        exact ⟨nd', by simp [pairUp, hnd3], ht'⟩

/-- `pairUp` preserves well-formedness of every node. -/
theorem wf_pairUp (Hs : String → String) :
    ∀ ns : List MNode, (∀ nd ∈ ns, MNode.WF Hs nd) →
      ∀ nd ∈ pairUp Hs ns, MNode.WF Hs nd
  | [], _ => by simp [pairUp]
  | [a], h => by
    simp only [pairUp, mkParent, List.mem_singleton]
    rintro nd rfl
    exact MNode.WF.node (h a (by simp)) (h a (by simp))
  | a :: b :: rest, h => by
    simp only [pairUp, mkParent, List.mem_cons]
    rintro nd (rfl | hnd)
    · exact MNode.WF.node (h a (by simp)) (h b (by simp))
    · exact wf_pairUp Hs rest (fun x hx => h x (by simp [hx])) nd hnd

/-- `buildLevels` of well-formed nodes is well-formed. -/
theorem buildLevels_wf (Hs : String → String) :
    ∀ (fuel : Nat) (ns : List MNode), (∀ nd ∈ ns, MNode.WF Hs nd) →
      MNode.WF Hs (buildLevels Hs fuel ns)
  | 0, [], _ => MNode.WF.leaf ""
  | 0, [a], h => h a (by simp)
  | 0, a :: _ :: _, h => h a (by simp)
  | _ + 1, [], _ => MNode.WF.leaf ""
  | _ + 1, [a], h => h a (by simp)
  | fuel + 1, a :: b :: rest, h => by
    rw [buildLevels]
    exact buildLevels_wf Hs fuel (pairUp Hs (a :: b :: rest))
      (wf_pairUp Hs (a :: b :: rest) h)

/-- With enough fuel (the list length suffices), every leaf hash of the
input level survives to the root `buildLevels` returns. -/
theorem mem_leafHashes_buildLevels (Hs : String → String) :
    ∀ (fuel : Nat) (ns : List MNode) (t : String), ns.length ≤ fuel →
      (∃ nd ∈ ns, t ∈ nd.leafHashes) →
      t ∈ (buildLevels Hs fuel ns).leafHashes := by
  intro fuel
  induction fuel with
  | zero =>
    intro ns t hlen hex
    interval_cases hns : ns.length
    · rw [List.length_eq_zero] at hns
      subst hns
      simp at hex
  | succ fuel ih =>
    intro ns t hlen hex
    match ns with
    | [] => simp at hex
    | [a] =>
      obtain ⟨nd, hnd, ht⟩ := hex
      simp only [List.mem_singleton] at hnd
      subst hnd
      exact ht
    | a :: b :: rest =>
      rw [buildLevels]
      apply ih
      · rw [pairUp_length]
        simp only [List.length_cons] at hlen ⊢
        omega
      · exact (mem_leafHashes_pairUp Hs (a :: b :: rest) t).mpr hex

/-- **C6.** For every non-empty id list and every id in it, the tree
construction succeeds and
`MerkleTree.verify(id, tree.getProof(id), tree.getRoot())` holds — odd
levels, whose unpaired last node is paired with itself, included. -/
theorem merkle_getProof_verify (Hs : String → String) (data : List String)
    (id : String) (hne : data ≠ []) (hmem : id ∈ data) :
    ∃ t p, mkMerkleTree Hs data = some t ∧
      MTree.getProof Hs t id = some p ∧
      merkleVerify Hs id p t.getRoot = true := by
  have hnef : data.isEmpty = false := by
    cases data with
    | nil => exact absurd rfl hne
    | cons a l => rfl
  have h1 : mkMerkleTree Hs data =
      some ⟨buildTreeFromNodes Hs ((data.map Hs).map MNode.leaf), data.map Hs⟩ := by
    unfold mkMerkleTree
    rw [hnef]
    rfl
  have hwf : MNode.WF Hs (buildTreeFromNodes Hs ((data.map Hs).map MNode.leaf)) := by
    apply buildLevels_wf
    intro nd hnd
    simp only [List.mem_map] at hnd
    obtain ⟨x, -, rfl⟩ := hnd
    exact MNode.WF.leaf _
  have hmem' : Hs id ∈
      (buildTreeFromNodes Hs ((data.map Hs).map MNode.leaf)).leafHashes := by
    apply mem_leafHashes_buildLevels Hs _ _ _ (Nat.le_refl _)
    refine ⟨MNode.leaf (Hs id), ?_, by simp [MNode.leafHashes]⟩
    simp only [List.mem_map]
    exact ⟨Hs id, ⟨id, hmem, rfl⟩, rfl⟩
  obtain ⟨p, hp⟩ := Option.isSome_iff_exists.mp
    (buildProof_isSome _ (Hs id) hmem')
  have hfold := buildProof_fold Hs _ hwf (Hs id) p hp
  refine ⟨⟨buildTreeFromNodes Hs ((data.map Hs).map MNode.leaf), data.map Hs⟩,
    p, h1, hp, ?_⟩
  show (p.foldl (foldStep Hs) (Hs id) ==
    (buildTreeFromNodes Hs ((data.map Hs).map MNode.leaf)).hash) = true
  rw [beq_iff_eq]
  exact hfold

/-- Closed witness for `merkle_getProof_verify` on an odd-length input. -/
theorem merkle_getProof_verify_witness :
    (["a", "b", "c"] : List String) ≠ [] ∧ "c" ∈ (["a", "b", "c"] : List String) ∧
    ∃ t p, mkMerkleTree dsHs ["a", "b", "c"] = some t ∧
      MTree.getProof dsHs t "c" = some p ∧
      merkleVerify dsHs "c" p t.getRoot = true :=
  ⟨by decide, by decide,
    merkle_getProof_verify dsHs ["a", "b", "c"] "c" (by decide) (by decide)⟩

/-! ## Transaction signing and the canonical id -/

/-- A transaction whose inputs keep their outpoints keeps its canonical
signing content: the content never reads signatures or public keys. -/
theorem contentForSigning_inputs (tx : Transaction) (inputs' : List TxInput)
    (h : inputs'.map (fun i => (i.txId, i.outputIndex)) =
        tx.inputs.map (fun i => (i.txId, i.outputIndex))) :
    Transaction.contentForSigning { tx with inputs := inputs' } =
      tx.contentForSigning := by
  simp [Transaction.contentForSigning, h]

/-- Per-input signing against a wallet list keeps every outpoint. -/
theorem map_outpoint_zip_sign (txData : TxContent) :
    ∀ (l : List TxInput) (ws : List Wallet), l.length = ws.length →
      (((l.zip ws).map (fun p : TxInput × Wallet =>
          if p.1.isSigned then p.1
          else p.1.setSignature (p.2.sign txData) p.2.publicKey)).map
        (fun i => (i.txId, i.outputIndex))) =
        l.map (fun i => (i.txId, i.outputIndex))
  | [], ws, h => by simp
  | a :: l, [], h => by simp at h
  | a :: l, ww :: ws, h => by
    simp only [List.zip_cons_cons, List.map_cons,
      map_outpoint_zip_sign txData l ws (by simpa using h)]
    congr 1
    by_cases ha : a.isSigned <;> simp [ha, TxInput.setSignature]

/-- The wallet-map signing loop keeps every outpoint when the per-input
signer does. -/
theorem signMapInputs_outpoints (sign : TxInput → Option TxInput)
    (hpres : ∀ i i', sign i = some i' →
      i'.txId = i.txId ∧ i'.outputIndex = i.outputIndex) :
    ∀ l l', signMapInputs sign l = some l' →
      l'.map (fun i => (i.txId, i.outputIndex)) =
        l.map (fun i => (i.txId, i.outputIndex))
  | [], l', h => by
    cases h
    rfl
  | i :: rest, l', h => by
    rw [signMapInputs] at h
    cases hs : sign i with
    | none =>
      rw [hs] at h
      cases h
    | some i' =>
      rw [hs] at h
      cases hr : signMapInputs sign rest with
      | none =>
        rw [hr] at h
        cases h
      | some rest' =>
        rw [hr] at h
        cases h
        simp only [List.map_cons,
          signMapInputs_outpoints sign hpres rest rest' hr]
        obtain ⟨h1, h2⟩ := hpres i i' hs
        rw [h1, h2]

/-- **C4.** A transaction's id is the hash of its canonical signing
content — outpoints, outputs and timestamp, with signatures, public
keys and the id itself excluded — fixed at construction
(`mkTransaction` conjunct) and unchanged by `signInput`,
`signTransaction`, `signTransactionWithWallets` and
`signTransactionWithWalletMap`. -/
theorem transaction_id_stable (Htx : TxContent → String) (tx : Transaction)
    (hid : tx.id = Htx tx.contentForSigning)
    (i : Int) (w : Wallet) (ws : List Wallet)
    (wm : List (String × Wallet)) (us : UTXOMap) :
    (signInput tx i w).2.id = tx.id ∧
    (signTransaction Htx tx w).id = tx.id ∧
    (∀ tx', signTransactionWithWallets Htx tx ws = some tx' →
      tx'.id = tx.id) ∧
    (∀ tx', signTransactionWithWalletMap Htx tx wm us = some tx' →
      tx'.id = tx.id) ∧
    (∀ (ins : List TxInput) (outs : List TxOutput) (ts : Int)
      (tx0 : Transaction), mkTransaction Htx ins outs ts = some tx0 →
      tx0.id = Htx tx0.contentForSigning) := by
  refine ⟨?_, ?_, ?_, ?_, ?_⟩
  · unfold signInput
    by_cases h1 : i < 0 ∨ (tx.inputs.length : Int) ≤ i
    · rw [if_pos h1]
    · rw [if_neg h1]
      cases hg : tx.inputs.get? i.toNat with
      | none => rfl
      | some inp =>
        show (if inp.isSigned = true then (true, tx)
          else (true, { tx with inputs := (tx.inputs.set i.toNat
            (inp.setSignature (w.sign tx.contentForSigning)
              w.publicKey)) })).2.id = tx.id
        by_cases hs : inp.isSigned = true
        · rw [if_pos hs]
        · rw [if_neg hs]
  · unfold signTransaction
    show Htx (Transaction.contentForSigning _) = tx.id
    rw [contentForSigning_inputs, ← hid]
    rw [List.map_map]
    apply List.map_congr_left
    intro a _
    by_cases ha : a.isSigned <;> simp [ha, TxInput.setSignature]
  · intro tx' h
    unfold signTransactionWithWallets at h
    by_cases harr : (ws.length != tx.inputs.length) = true
    · rw [if_pos harr] at h
      cases h
    · rw [if_neg harr] at h
      cases h
      show Htx (Transaction.contentForSigning _) = tx.id
      rw [contentForSigning_inputs, ← hid]
      have hlen : ws.length = tx.inputs.length :=
        not_ne_iff.mp (fun hne => harr (bne_iff_ne.mpr hne))
      exact map_outpoint_zip_sign tx.contentForSigning tx.inputs ws hlen.symm
  · intro tx' h
    unfold signTransactionWithWalletMap at h
    cases hm : signMapInputs (fun inp =>
        if inp.isSigned then some inp
        else
          match usGet us (inp.txId, inp.outputIndex) with
          | none => none
          | some utxo =>
            match wm.find? (fun e => e.1 == utxo.address) with
            | none => none
            | some e => some (inp.setSignature
                (e.2.sign tx.contentForSigning) e.2.publicKey)) tx.inputs with
    | none =>
      rw [hm] at h
      cases h
    | some inputs' =>
      rw [hm] at h
      cases h
      show Htx (Transaction.contentForSigning _) = tx.id
      rw [contentForSigning_inputs, ← hid]
      refine signMapInputs_outpoints _ ?_ tx.inputs inputs' hm
      intro a a' ha
      by_cases has : a.isSigned = true
      · rw [if_pos has] at ha
        cases ha
        exact ⟨rfl, rfl⟩
      · rw [if_neg has] at ha
        split at ha
        · cases ha
        · split at ha
          · cases ha
          · cases ha
            exact ⟨rfl, rfl⟩
  · intro ins outs ts tx0 h
    unfold mkTransaction at h
    by_cases he : (ins.isEmpty || outs.isEmpty) = true
    · rw [if_pos he] at h
      cases h
    · rw [if_neg he] at h
      cases h
      rfl

/-- Closed witness for `transaction_id_stable` at a concrete signed
transaction. -/
theorem transaction_id_stable_witness :
    wTx.id = dsHtx wTx.contentForSigning ∧
    (signInput wTx 0 wWallet).2.id = wTx.id ∧
    (signTransaction dsHtx wTx wWallet).id = wTx.id ∧
    (∀ tx', signTransactionWithWallets dsHtx wTx [wWallet] = some tx' →
      tx'.id = wTx.id) ∧
    (∀ tx', signTransactionWithWalletMap dsHtx wTx [] [] = some tx' →
      tx'.id = wTx.id) ∧
    (∀ (ins : List TxInput) (outs : List TxOutput) (ts : Int)
      (tx0 : Transaction), mkTransaction dsHtx ins outs ts = some tx0 →
      tx0.id = dsHtx tx0.contentForSigning) :=
  ⟨by decide,
    transaction_id_stable dsHtx wTx (by decide) 0 wWallet [wWallet] [] []⟩

/-! ## Transaction verification -/

/-- **C5.** `verifyTransaction` is total (never throws) and returns
`true` iff the transaction is coinbase, or every input is signed, its
signature verifies against the transaction's canonical signing content
under the stored public key, its referenced outpoint exists in the
UTXO set, and the address derived from its public key
(`base58(ripemd160(sha256(publicKey)))`) equals that UTXO's address. -/
theorem verifyTransaction_iff (SigV : TxContent → String → String → Bool)
    (Hs R160 B58 : String → String) (tx : Transaction) (us : UTXOMap) :
    verifyTransaction SigV Hs R160 B58 tx us = true ↔
      (tx.isCoinbase = true ∨
        ∀ inp ∈ tx.inputs, inp.isSigned = true ∧
          SigV tx.contentForSigning inp.signature inp.publicKey = true ∧
          ∃ utxo, usGet us (inp.txId, inp.outputIndex) = some utxo ∧
            addressFromPublicKey Hs R160 B58 inp.publicKey = utxo.address) := by
  unfold verifyTransaction
  by_cases hcb : tx.isCoinbase = true
  · simp [hcb]
  · rw [if_neg hcb]
    simp only [List.all_eq_true, Bool.and_eq_true]
    constructor
    · intro h
      refine Or.inr (fun inp hinp => ?_)
      obtain ⟨⟨h1, h2⟩, h3⟩ := h inp hinp
      cases hu : usGet us (inp.txId, inp.outputIndex) with
      | none =>
        rw [hu] at h3
        cases h3
      | some utxo =>
        rw [hu] at h3
        exact ⟨h1, h2, utxo, rfl, beq_iff_eq.mp h3⟩
    · rintro (h | h)
      · exact absurd h hcb
      · intro inp hinp
        obtain ⟨h1, h2, utxo, hu, ha⟩ := h inp hinp
        refine ⟨⟨h1, h2⟩, ?_⟩
        rw [hu]
        exact beq_iff_eq.mpr ha

/-- Closed witness for `verifyTransaction_iff` at a coinbase
transaction against an empty UTXO set. -/
theorem verifyTransaction_iff_witness :
    verifyTransaction (fun _ _ _ => false) dsHs dsHs dsHs dsCoinbase [] = true ↔
      (dsCoinbase.isCoinbase = true ∨
        ∀ inp ∈ dsCoinbase.inputs, inp.isSigned = true ∧
          (fun (_ : TxContent) (_ _ : String) => false) dsCoinbase.contentForSigning
            inp.signature inp.publicKey = true ∧
          ∃ utxo, usGet [] (inp.txId, inp.outputIndex) = some utxo ∧
            addressFromPublicKey dsHs dsHs dsHs inp.publicKey = utxo.address) :=
  verifyTransaction_iff (fun _ _ _ => false) dsHs dsHs dsHs dsCoinbase []

/-! ## Transaction builder -/

/-- A fold that adds `f` of every element equals the starting value
plus the mapped sum. -/
theorem foldl_add_map {α : Type} (f : α → Int) :
    ∀ (l : List α) (a : Int),
      l.foldl (fun s e => s + f e) a = a + (l.map f).sum
  | [], a => by simp
  | x :: rest, a => by
    simp only [List.foldl_cons, List.map_cons, List.sum_cons,
      foldl_add_map f rest (a + f x)]
    omega

/-- `sumAmounts` as a mapped sum. -/
theorem sumAmounts_eq (l : UTXOMap) :
    sumAmounts l = (l.map (fun e => e.2.amount)).sum := by
  simpa [sumAmounts] using foldl_add_map (fun e : Outpoint × TxOutput => e.2.amount) l 0

/-- Membership through the stable insertion step. -/
theorem mem_insertDesc (x : Outpoint × TxOutput) :
    ∀ (l : UTXOMap) (y), y ∈ insertDesc x l ↔ y = x ∨ y ∈ l
  | [], y => by simp [insertDesc]
  | z :: rest, y => by
    rw [insertDesc]
    by_cases h : z.2.amount < x.2.amount
    · rw [if_pos h]
      simp [List.mem_cons]
    · rw [if_neg h]
      rw [List.mem_cons, mem_insertDesc x rest y, List.mem_cons]
      tauto

/-- Sorting keeps exactly the entries. -/
theorem mem_sortByAmountDesc :
    ∀ (l : UTXOMap) (y), y ∈ sortByAmountDesc l ↔ y ∈ l
  | [], y => by simp [sortByAmountDesc]
  | x :: rest, y => by
    show y ∈ insertDesc x (sortByAmountDesc rest) ↔ _
    rw [mem_insertDesc, mem_sortByAmountDesc rest y]
    simp [List.mem_cons]

/-- The selection loop only picks entries from its input. -/
theorem takeUntil_subset (target : Int) :
    ∀ (l : UTXOMap) (tot : Int) (e : Outpoint × TxOutput),
      e ∈ takeUntil target l tot → e ∈ l
  | [], tot, e => by simp [takeUntil]
  | u :: rest, tot, e => by
    rw [takeUntil]
    intro h
    rcases List.mem_cons.mp h with heq | hmem
    · simp [heq]
    · by_cases hc : target ≤ tot + u.2.amount
      · rw [if_pos hc] at hmem
        simp at hmem
      · rw [if_neg hc] at hmem
        exact List.mem_cons_of_mem u
          (takeUntil_subset target rest (tot + u.2.amount) e hmem)

/-- Selected UTXOs come from the input set. -/
theorem selectUTXOs_subset (u : UTXOMap) (t : Int)
    (e : Outpoint × TxOutput) (h : e ∈ selectUTXOs u t) : e ∈ u := by
  unfold selectUTXOs at h
  by_cases hs : sumAmounts (takeUntil t (sortByAmountDesc u) 0) < t
  · rw [if_pos hs] at h
    simp at h
  · rw [if_neg hs] at h
    exact (mem_sortByAmountDesc u e).mp
      (takeUntil_subset t (sortByAmountDesc u) 0 e h)

/-- A non-empty selection covers the target (the insufficient-funds
guard returns `[]` otherwise). -/
theorem selectUTXOs_total (u : UTXOMap) (t : Int)
    (h : selectUTXOs u t ≠ []) : t ≤ sumAmounts (selectUTXOs u t) := by
  unfold selectUTXOs at h ⊢
  by_cases hs : sumAmounts (takeUntil t (sortByAmountDesc u) 0) < t
  · rw [if_pos hs] at h
    exact absurd rfl h
  · rw [if_neg hs]
    omega

/-- Lookup of a stored entry in a map whose keys are unique. -/
theorem usGet_of_mem_nodup :
    ∀ (u : UTXOMap), (u.map Prod.fst).Nodup →
      ∀ (k : Outpoint) (v : TxOutput), (k, v) ∈ u → usGet u k = some v
  | [], _, k, v => by simp
  | (k', v') :: rest, hnd, k, v => by
    intro hmem
    rw [List.map_cons, List.nodup_cons] at hnd
    rcases List.mem_cons.mp hmem with heq | hmem'
    · cases heq
      unfold usGet
      rw [List.find?_cons_of_pos _ (by simp)]
      rfl
    · have hk : ¬(k' == k) = true := by
        simp only [beq_iff_eq]
        intro hkk
        subst hkk
        exact hnd.1 (List.mem_map.mpr ⟨(k', v), hmem', rfl⟩)
      unfold usGet
      rw [List.find?_cons_of_neg _ (by simpa using hk)]
      exact usGet_of_mem_nodup rest hnd.2 k v hmem'

/-- Summing the looked-up amounts of inputs built from stored entries
recovers the entry sum. -/
theorem inputAmount_sel (u : UTXOMap) :
    ∀ (sel : UTXOMap), (∀ e ∈ sel, usGet u e.1 = some e.2) →
      inputAmountAux u (sel.map (fun e => TxInput.mk e.1.1 e.1.2 "" "" none)) =
        some (sumAmounts sel)
  | [], _ => by simp [inputAmountAux, sumAmounts]
  | e :: rest, h => by
    rw [List.map_cons, inputAmountAux]
    have he : usGet u (e.1.1, e.1.2) = some e.2 := by
      simpa using h e (by simp)
    rw [show ((TxInput.mk e.1.1 e.1.2 "" "" none).txId,
        (TxInput.mk e.1.1 e.1.2 "" "" none).outputIndex) = (e.1.1, e.1.2) from rfl,
      he, inputAmount_sel u rest (fun x hx => h x (by simp [hx]))]
    show some (e.2.amount + sumAmounts rest) = some (sumAmounts (e :: rest))
    rw [sumAmounts_eq, sumAmounts_eq, List.map_cons, List.sum_cons]

/-- Recipient outputs sum their amounts. -/
theorem outputsSum_recipients (rs : List (String × Int)) :
    ∀ a : Int, (rs.map (fun r => TxOutput.mk r.2 r.1)).foldl
      (fun s o => s + o.amount) a = rs.foldl (fun s r => s + r.2) a := by
  induction rs with
  | nil => intro a; rfl
  | cons r rest ih =>
    intro a
    simp only [List.map_cons, List.foldl_cons]
    exact ih (a + r.2)

/-- Appending one output adds its amount to the fold. -/
theorem foldl_add_append_single (l : List TxOutput) (c : TxOutput) (a : Int) :
    (l ++ [c]).foldl (fun s o => s + o.amount) a =
      l.foldl (fun s o => s + o.amount) a + c.amount := by
  rw [List.foldl_append]
  rfl

/-- Computation rule for `build` once the source wallet is known. -/
theorem build_eq (Htx : TxContent → String) (now : Int) (st : BuilderState)
    (w : Wallet) (hw : st.fromWallet = some w) :
    build Htx now st =
      if st.recipients.isEmpty then none
      else if (usByAddress st.utxoSet w.address).isEmpty then none
      else if (selectedFor st w).isEmpty then none
      else if changeOf st w < 0 then none
      else
        mkTransaction Htx
          ((selectedFor st w).map (fun e => TxInput.mk e.1.1 e.1.2 "" "" none))
          (if 0 < changeOf st w
           then st.recipients.map (fun r => TxOutput.mk r.2 r.1) ++
             [TxOutput.mk (changeOf st w) (resolveChangeAddress st w)]
           else st.recipients.map (fun r => TxOutput.mk r.2 r.1))
          now := by
  unfold build
  rw [hw]

/-- **C8.** A transaction `build()` returns funds its outputs from the
greedily selected UTXOs: the summed input amount, looked up in the
builder's UTXO set, equals the selected total; it is at least the
summed output amount; the inputs are exactly one unsigned input per
selected UTXO; and the outputs are one per recipient plus a change
output — paid to the change address, defaulting to the sender's —
exactly when the selected total strictly exceeds the recipient total,
with amount equal to their difference. -/
theorem build_spec (Htx : TxContent → String) (now : Int) (st : BuilderState)
    (w : Wallet) (tx : Transaction)
    (hw : st.fromWallet = some w)
    (hnodup : (st.utxoSet.map Prod.fst).Nodup)
    (hb : build Htx now st = some tx) :
    tx.getInputAmount st.utxoSet = some (sumAmounts (selectedFor st w)) ∧
    tx.getOutputAmount ≤ sumAmounts (selectedFor st w) ∧
    tx.inputs = (selectedFor st w).map
      (fun e => TxInput.mk e.1.1 e.1.2 "" "" none) ∧
    tx.outputs = st.recipients.map (fun r => TxOutput.mk r.2 r.1) ++
      (if recipientTotal st < sumAmounts (selectedFor st w)
       then [TxOutput.mk (sumAmounts (selectedFor st w) - recipientTotal st)
         (resolveChangeAddress st w)]
       else []) := by
  rw [build_eq Htx now st w hw] at hb
  by_cases h1 : st.recipients.isEmpty
  · rw [if_pos h1] at hb
    cases hb
  rw [if_neg h1] at hb
  by_cases h2 : (usByAddress st.utxoSet w.address).isEmpty
  · rw [if_pos h2] at hb
    cases hb
  rw [if_neg h2] at hb
  by_cases h3 : (selectedFor st w).isEmpty
  · rw [if_pos h3] at hb
    cases hb
  rw [if_neg h3] at hb
  by_cases h4 : changeOf st w < 0
  · rw [if_pos h4] at hb
    cases hb
  rw [if_neg h4] at hb
  have hselne : selectedFor st w ≠ [] := by
    intro hnil
    rw [hnil] at h3
    exact h3 rfl
  have hinsne : ((selectedFor st w).map
      (fun e => TxInput.mk e.1.1 e.1.2 "" "" none)).isEmpty = false := by
    cases hsel : selectedFor st w with
    | nil => exact absurd hsel hselne
    | cons a l => rfl
  unfold mkTransaction at hb
  rw [hinsne, Bool.false_or] at hb
  have houtne : (if 0 < changeOf st w
      then st.recipients.map (fun r => TxOutput.mk r.2 r.1) ++
        [TxOutput.mk (changeOf st w) (resolveChangeAddress st w)]
      else st.recipients.map (fun r => TxOutput.mk r.2 r.1)).isEmpty = false := by
    by_cases hch : 0 < changeOf st w
    · rw [if_pos hch]
      simp
    · rw [if_neg hch]
      cases hre : st.recipients with
      | nil =>
        rw [hre] at h1
        exact absurd rfl h1
      | cons a l => rfl
  rw [houtne, if_neg (by simp)] at hb
  cases hb
  have hget : ∀ e ∈ selectedFor st w, usGet st.utxoSet e.1 = some e.2 := by
    intro e he
    have hmem : e ∈ st.utxoSet :=
      List.mem_of_mem_filter (selectUTXOs_subset _ _ e he)
    exact usGet_of_mem_nodup st.utxoSet hnodup e.1 e.2 (by simpa using hmem)
  have htotal : recipientTotal st ≤ sumAmounts (selectedFor st w) :=
    selectUTXOs_total (usByAddress st.utxoSet w.address)
      (recipientTotal st) hselne
  refine ⟨inputAmount_sel st.utxoSet (selectedFor st w) hget, ?_, rfl, ?_⟩
  · show Transaction.getOutputAmount _ ≤ _
    unfold Transaction.getOutputAmount
    by_cases hch : 0 < changeOf st w
    · rw [if_pos hch, foldl_add_append_single, outputsSum_recipients]
      show recipientTotal st + changeOf st w ≤ sumAmounts (selectedFor st w)
      unfold changeOf
      omega
    · rw [if_neg hch, outputsSum_recipients]
      exact htotal
  · by_cases hch : 0 < changeOf st w
    · rw [if_pos hch, if_pos (by unfold changeOf at hch; omega)]
      show _ ++ [TxOutput.mk (changeOf st w) _] = _ ++ [TxOutput.mk _ _]
      unfold changeOf
      rfl
    · rw [if_neg hch, if_neg (by unfold changeOf at hch; omega)]
      rw [List.append_nil]

/-- Closed witness for `build_spec`: a 40-unit transfer funded by a
100-unit UTXO yields a 60-unit change output. -/
theorem build_spec_witness :
    wB.fromWallet = some wWallet ∧
    (wB.utxoSet.map Prod.fst).Nodup ∧
    build dsHtx 5 wB =
      some ⟨"5", [⟨"u", 0, "", "", none⟩], [⟨40, "bob"⟩, ⟨60, "addr"⟩], 5⟩ ∧
    (Transaction.mk "5" [⟨"u", 0, "", "", none⟩] [⟨40, "bob"⟩, ⟨60, "addr"⟩]
      5).getInputAmount wB.utxoSet = some (sumAmounts (selectedFor wB wWallet)) ∧
    (Transaction.mk "5" [⟨"u", 0, "", "", none⟩] [⟨40, "bob"⟩, ⟨60, "addr"⟩]
      5).getOutputAmount ≤ sumAmounts (selectedFor wB wWallet) ∧
    (Transaction.mk "5" [⟨"u", 0, "", "", none⟩] [⟨40, "bob"⟩, ⟨60, "addr"⟩]
      5).inputs = (selectedFor wB wWallet).map
        (fun e => TxInput.mk e.1.1 e.1.2 "" "" none) ∧
    (Transaction.mk "5" [⟨"u", 0, "", "", none⟩] [⟨40, "bob"⟩, ⟨60, "addr"⟩]
      5).outputs = wB.recipients.map (fun r => TxOutput.mk r.2 r.1) ++
      (if recipientTotal wB < sumAmounts (selectedFor wB wWallet)
       then [TxOutput.mk (sumAmounts (selectedFor wB wWallet) - recipientTotal wB)
         (resolveChangeAddress wB wWallet)]
       else []) :=
  have hb : build dsHtx 5 wB =
      some ⟨"5", [⟨"u", 0, "", "", none⟩], [⟨40, "bob"⟩, ⟨60, "addr"⟩], 5⟩ := by
    decide
  have h := build_spec dsHtx 5 wB wWallet
    ⟨"5", [⟨"u", 0, "", "", none⟩], [⟨40, "bob"⟩, ⟨60, "addr"⟩], 5⟩
    rfl (by decide) hb
  ⟨rfl, by decide, hb, h.1, h.2.1, h.2.2.1, h.2.2.2⟩

/-! ## The cached block hash -/

/-- Counterexample to the claim that changing a committed header field
always changes the value the `hash` accessor returns: on a block whose
hash has already been read (cache filled), a direct write to `index`
leaves the observed hash unchanged, even under a hash function that
distinguishes the two headers — only `setNonce` invalidates the
cache. -/
theorem cached_hash_stale_after_field_change :
    c9b1.hashCache = some (c9H c9b1.header) ∧
    c9b2.index ≠ c9b1.index ∧
    c9H c9b2.header ≠ c9H c9b1.header ∧
    (CBlock.hashGet c9H c9b2).1 = (CBlock.hashGet c9H c9b1).1 := by
  refine ⟨by decide, by decide, by decide, by decide⟩

/-- **C9 (amended).** On a block whose hash cache is empty — freshly
constructed or just after `setNonce` — any change to a committed header
field other than nonce changes the header the hash reads, and the
accessor then returns the hash of the new header, which differs
whenever the hash function distinguishes the two headers; and after any
`setNonce(n)`, reading the hash always returns the hash of the header
serialization carrying the latest nonce `n`.  (On a block whose hash is
cached, a direct field write does not change the observed hash; see the
counterexample.) -/
theorem block_hash_spec (H : Header → String) (b : CBlock)
    (hc : b.hashCache = none) :
    (∀ i, i ≠ b.index →
      ({ b with index := i } : CBlock).header ≠ b.header ∧
      (H ({ b with index := i } : CBlock).header ≠ H b.header →
        (CBlock.hashGet H { b with index := i }).1 ≠ (CBlock.hashGet H b).1)) ∧
    (∀ p, p ≠ b.previousHash →
      ({ b with previousHash := p } : CBlock).header ≠ b.header ∧
      (H ({ b with previousHash := p } : CBlock).header ≠ H b.header →
        (CBlock.hashGet H { b with previousHash := p }).1 ≠
          (CBlock.hashGet H b).1)) ∧
    (∀ t, t ≠ b.timestamp →
      ({ b with timestamp := t } : CBlock).header ≠ b.header ∧
      (H ({ b with timestamp := t } : CBlock).header ≠ H b.header →
        (CBlock.hashGet H { b with timestamp := t }).1 ≠
          (CBlock.hashGet H b).1)) ∧
    (∀ m, m ≠ b.merkleRoot →
      ({ b with merkleRoot := m } : CBlock).header ≠ b.header ∧
      (H ({ b with merkleRoot := m } : CBlock).header ≠ H b.header →
        (CBlock.hashGet H { b with merkleRoot := m }).1 ≠
          (CBlock.hashGet H b).1)) ∧
    (∀ d, d ≠ b.difficulty →
      ({ b with difficulty := d } : CBlock).header ≠ b.header ∧
      (H ({ b with difficulty := d } : CBlock).header ≠ H b.header →
        (CBlock.hashGet H { b with difficulty := d }).1 ≠
          (CBlock.hashGet H b).1)) ∧
    (∀ n, (CBlock.hashGet H (b.setNonce n)).1 =
      H ⟨b.index, b.previousHash, b.timestamp, b.merkleRoot, b.difficulty, n⟩) := by
  refine ⟨?_, ?_, ?_, ?_, ?_, ?_⟩
  · intro i hi
    refine ⟨fun he => hi (congrArg Header.index he), fun hne => ?_⟩
    simpa [CBlock.hashGet, hc] using hne
  · intro p hp
    refine ⟨fun he => hp (congrArg Header.previousHash he), fun hne => ?_⟩
    simpa [CBlock.hashGet, hc] using hne
  · intro t ht
    refine ⟨fun he => ht (congrArg Header.timestamp he), fun hne => ?_⟩
    simpa [CBlock.hashGet, hc] using hne
  · intro m hm
    refine ⟨fun he => hm (congrArg Header.merkleRoot he), fun hne => ?_⟩
    simpa [CBlock.hashGet, hc] using hne
  · intro d hd
    refine ⟨fun he => hd (congrArg Header.difficulty he), fun hne => ?_⟩
    simpa [CBlock.hashGet, hc] using hne
  · intro n
    rfl

/-- Closed witness for `block_hash_spec` on a cache-free block. -/
theorem block_hash_spec_witness :
    c9b0.hashCache = none ∧
    (1 : Int) ≠ c9b0.index ∧
    ({ c9b0 with index := 1 } : CBlock).header ≠ c9b0.header ∧
    c9H ({ c9b0 with index := 1 } : CBlock).header ≠ c9H c9b0.header ∧
    (CBlock.hashGet c9H { c9b0 with index := 1 }).1 ≠
      (CBlock.hashGet c9H c9b0).1 ∧
    (CBlock.hashGet c9H (c9b0.setNonce 5)).1 =
      c9H ⟨c9b0.index, c9b0.previousHash, c9b0.timestamp, c9b0.merkleRoot,
        c9b0.difficulty, 5⟩ :=
  have h := block_hash_spec c9H c9b0 rfl
  have h1 := h.1 1 (by decide)
  ⟨rfl, by decide, h1.1, by decide, h1.2 (by decide), h.2.2.2.2.2 5⟩

end BC
